import Mathlib

/-!
Shallow embedding of the concatenation composite iterator of
`src/include/Lz/detail/ConcatenateIterator.hpp`.

A member iterator is modelled as an integer offset from that member's
begin iterator: the member's begin is `0` and its end is the member
sequence's length.  A composite concatenation cursor is the list of the
N member offsets (the `_iterators` tuple); the `_end` snapshot is the
list of member lengths and the `_begin` snapshot is the all-zero list.
The recursive helper structs (`PlusPlus`, `NotEqual`, `Deref`,
`MinusMinus`, `MinIs`, `PlusIs`) recurse on the member index; the ones
that recurse downward from index N-1 (`MinusMinus`, `MinIs`) are
translated as structural recursion on the reversed list.
-/

namespace Lz

/-- `PlusPlus<Tuple, I>`: scan from member 0 upward, advance the first
member whose current iterator differs from its end; the base case at
index N is a no-op. -/
def plusPlus : List Int → List Int → List Int
  | c :: cs, e :: es => if c = e then c :: plusPlus cs es else (c + 1) :: cs
  | cs, _ => cs

/-- `NotEqual<Tuple, I>`: short-circuit scan from member 0 upward; the
base case at index N-1 compares unconditionally. -/
def notEqual : List Int → List Int → Bool
  | [a], [b] => decide (a ≠ b)
  | a :: as, b :: bs => decide (a ≠ b) || notEqual as bs
  | _, _ => false

/-- Dereference of one member iterator at offset `c` into sequence `s`
(undefined behaviour outside the valid range becomes `none`). -/
def derefMember {α : Type} (s : List α) (c : Int) : Option α :=
  if 0 ≤ c then s.get? c.toNat else none

/-- `Deref<Tuple, I>`: return the value of the first member whose
current iterator differs from its end; the last member is dereferenced
unconditionally. -/
def deref {α : Type} : List (List α) → List Int → Option α
  | [s], [c] => derefMember s c
  | s :: ss, c :: cs => if c = (s.length : Int) then deref ss cs else derefMember s c
  | _, _ => none

/-- `MinusMinus<Tuple, I>` on the reversed member list: recursion runs
from member N-1 down to 0; member 0 decrements unconditionally. -/
def minusMinusRev : List Int → List Int
  | [c] => [c - 1]
  | c :: cs => if c = 0 then c :: minusMinusRev cs else (c - 1) :: cs
  | [] => []

/-- `operator--`: `MinusMinus<IterTuple, N-1>` applied to the tuple. -/
def minusMinus (cur : List Int) : List Int :=
  (minusMinusRev cur.reverse).reverse

/-- `PlusIs<Tuple, I>`: jump forward by `off`, consuming members from
index 0 upward; the base case at index N-1 is a no-op. -/
def plusIs : List Int → List Int → Int → List Int
  | [c], _, _ => [c]
  | c :: cs, e :: es, off =>
      let dist := e - c
      if dist > off then (c + off) :: cs
      else (c + dist) :: plusIs cs es (off - dist)
  | cs, _, _ => cs

/-- `MinIs<Tuple, I>` on the reversed member lists: recursion runs from
member N-1 down to 0; a member sitting at its begin is skipped, the
base case at member 0 subtracts unconditionally. -/
def minIsRev : List Int → List Int → Int → List Int
  | [c], _, off => [c - off]
  | c :: cs, e :: es, off =>
      if c = 0 then c :: minIsRev cs es off
      else
        let dist := e - c
        if dist ≤ off then (0 : Int) :: minIsRev cs es (if dist = 0 then 1 else off - dist)
        else (c - off) :: cs
  | cs, _, _ => cs

/-- `operator-=`: `MinIs<IterTuple, N-1>` applied to the tuple. -/
def minIs (cur es : List Int) (off : Int) : List Int :=
  (minIsRev cur.reverse es.reverse off).reverse

/-- `ConcatenateIterator::minus`: the distance of two composite cursors
is the accumulated sum of the per-member iterator differences. -/
def minus (a b : List Int) : Int :=
  (List.zipWith (fun x y => x - y) a b).sum

/-- The begin-state cursor: every member at its begin. -/
def begins (lens : List Nat) : List Int :=
  lens.map (fun _ => (0 : Int))

/-- The end-state cursor: every member at its end. -/
def endsOf (lens : List Nat) : List Int :=
  lens.map Nat.cast

/-- The end snapshot derived from the member sequences themselves. -/
def endsOfSeqs {α : Type} (seqs : List (List α)) : List Int :=
  seqs.map (fun s => (s.length : Int))

/-- Total length of the concatenation. -/
def total (lens : List Nat) : Nat :=
  lens.sum

/-- The composite cursor after consuming `p` elements from the
begin-state, member by member from the left. -/
def stateAt : List Nat → Nat → List Int
  | [], _ => []
  | l :: ls, p => if p < l then (p : Int) :: begins ls else (l : Int) :: stateAt ls (p - l)

/-- `k` applications of `operator++`. -/
def stepN (es : List Int) : Nat → List Int → List Int
  | 0, c => c
  | k + 1, c => stepN es k (plusPlus c es)

/-- `operator==`: the negation of `operator!=`. -/
def eqCursor (a b : List Int) : Bool := !(notEqual a b)

/-- `operator--(int)` as written in the source: copy the cursor, then
run `++*this`, and return the copy together with the new state. -/
def postDec (cur es : List Int) : List Int × List Int :=
  (cur, plusPlus cur es)

/-- `plusIs` instrumented with explicit fuel: each recursive call of
`PlusIs` consumes one unit; running out of fuel yields `none`. -/
def plusIsFuel : Nat → List Int → List Int → Int → Option (List Int)
  | 0, _, _, _ => none
  | _ + 1, [c], _, _ => some [c]
  | f + 1, c :: cs, e :: es, off =>
      let dist := e - c
      if dist > off then some ((c + off) :: cs)
      else Option.map (fun r => (c + dist) :: r) (plusIsFuel f cs es (off - dist))
  | _ + 1, cs, _, _ => some cs

/-- `minIsRev` instrumented with explicit fuel: each recursive call of
`MinIs` consumes one unit; running out of fuel yields `none`. -/
def minIsRevFuel : Nat → List Int → List Int → Int → Option (List Int)
  | 0, _, _, _ => none
  | _ + 1, [c], _, off => some [c - off]
  | f + 1, c :: cs, e :: es, off =>
      if c = 0 then Option.map (fun r => c :: r) (minIsRevFuel f cs es off)
      else
        let dist := e - c
        if dist ≤ off then
          Option.map (fun r => (0 : Int) :: r)
            (minIsRevFuel f cs es (if dist = 0 then 1 else off - dist))
        else some ((c - off) :: cs)
  | _ + 1, cs, _, _ => some cs

theorem stateAtZero (lens : List Nat) : stateAt lens 0 = begins lens := by
  induction lens with
  | nil => rfl
  | cons l ls ih =>
    by_cases h : 0 < l
    · simp [stateAt, h, begins]
    · have hl : l = 0 := by omega
      subst hl
      simp [stateAt, begins]
      simpa [begins] using ih

theorem stateAtTotal (lens : List Nat) : stateAt lens (total lens) = endsOf lens := by
  induction lens with
  | nil => rfl
  | cons l ls ih =>
    have h : ¬ (l + ls.sum < l) := by omega
    simp [stateAt, total, endsOf, List.sum_cons, h]
    simpa [total, endsOf] using ih

theorem stateAtLength (lens : List Nat) (p : Nat) :
    (stateAt lens p).length = lens.length := by
  induction lens generalizing p with
  | nil => rfl
  | cons l ls ih =>
    by_cases h : p < l <;> simp [stateAt, h, begins, ih]

theorem endsOfLength (lens : List Nat) : (endsOf lens).length = lens.length := by
  rw [endsOf, List.length_map]

theorem plusPlusStateAt (lens : List Nat) (p : Nat) (hp : p < total lens) :
    plusPlus (stateAt lens p) (endsOf lens) = stateAt lens (p + 1) := by
  induction lens generalizing p with
  | nil => simp [total] at hp
  | cons l ls ih =>
    by_cases h : p < l
    · have hne : ((p : Int)) ≠ ((l : Int)) := by
        exact_mod_cast Nat.ne_of_lt h
      rw [stateAt, if_pos h]
      rw [show endsOf (l :: ls) = (l : Int) :: endsOf ls from rfl]
      rw [plusPlus, if_neg hne]
      by_cases h1 : p + 1 < l
      · rw [stateAt, if_pos h1]
        push_cast
        rfl
      · have hpl : p + 1 = l := by omega
        rw [stateAt, if_neg (by omega)]
        subst hpl
        simp [stateAtZero]
    · have hle : l ≤ p := Nat.not_lt.mp h
      rw [stateAt, if_neg h]
      rw [show endsOf (l :: ls) = (l : Int) :: endsOf ls from rfl]
      rw [plusPlus, if_pos rfl]
      rw [stateAt, if_neg (by omega)]
      have : p + 1 - l = (p - l) + 1 := by omega
      rw [this, ih (p - l) (by simp [total, List.sum_cons] at hp ⊢; omega)]

theorem stepNStateAt (lens : List Nat) (p k : Nat) (h : p + k ≤ total lens) :
    stepN (endsOf lens) k (stateAt lens p) = stateAt lens (p + k) := by
  induction k generalizing p with
  | zero => simp [stepN]
  | succ k ih =>
    rw [stepN, plusPlusStateAt lens p (by omega), ih (p + 1) (by omega)]
    congr 1
    omega

theorem minusCons (a b : Int) (as bs : List Int) :
    minus (a :: as) (b :: bs) = (a - b) + minus as bs := by
  simp [minus]

theorem minusSelf (a : List Int) : minus a a = 0 := by
  induction a with
  | nil => rfl
  | cons x xs ih => rw [minusCons, ih]; ring

theorem minusStateAt (lens : List Nat) (p q : Nat) (hp : p ≤ total lens)
    (hq : q ≤ total lens) :
    minus (stateAt lens q) (stateAt lens p) = (q : Int) - (p : Int) := by
  induction lens generalizing p q with
  | nil =>
    simp [total] at hp hq
    subst hp; subst hq
    rfl
  | cons l ls ih =>
    have htot : total (l :: ls) = l + total ls := by simp [total]
    rw [htot] at hp hq
    by_cases hql : q < l <;> by_cases hpl : p < l
    · rw [stateAt, if_pos hql, stateAt, if_pos hpl, minusCons, minusSelf]
      ring
    · rw [stateAt, if_pos hql, stateAt, if_neg hpl, minusCons, ← stateAtZero ls]
      rw [ih (p - l) 0 (by omega) (by omega)]
      omega
    · rw [stateAt, if_neg hql, stateAt, if_pos hpl, minusCons, ← stateAtZero ls]
      rw [ih 0 (q - l) (by omega) (by omega)]
      omega
    · rw [stateAt, if_neg hql, stateAt, if_neg hpl, minusCons]
      rw [ih (p - l) (q - l) (by omega) (by omega)]
      omega

theorem notEqualFalseIff : ∀ (a b : List Int), a.length = b.length →
    (notEqual a b = false ↔ a = b)
  | [], [], _ => by simp [notEqual]
  | [x], [y], _ => by simp [notEqual]
  | x :: x2 :: xs, y :: y2 :: ys, h => by
      have ih := notEqualFalseIff (x2 :: xs) (y2 :: ys) (by simpa using h)
      simp only [notEqual, Bool.or_eq_false_iff, decide_eq_false_iff_not, not_not, ih,
        List.cons.injEq]
  | [], _ :: _, h => by simp at h
  | _ :: _, [], h => by simp at h
  | [_], _ :: _ :: _, h => by simp at h
  | _ :: _ :: _, [_], h => by simp at h

theorem notEqualStateAt (lens : List Nat) (p : Nat) (hp : p < total lens) :
    notEqual (stateAt lens p) (endsOf lens) = true := by
  by_contra hne
  have hfalse : notEqual (stateAt lens p) (endsOf lens) = false := by
    cases hb : notEqual (stateAt lens p) (endsOf lens) with
    | true => exact absurd hb hne
    | false => rfl
  have heq : stateAt lens p = endsOf lens :=
    (notEqualFalseIff _ _ (by rw [stateAtLength, endsOfLength])).mp hfalse
  have h2 : minus (stateAt lens p) (stateAt lens (total lens)) =
      (p : Int) - (total lens : Int) :=
    minusStateAt lens (total lens) p (le_refl _) (le_of_lt hp)
  rw [stateAtTotal, heq, minusSelf] at h2
  omega

theorem plusPlusFrozen : ∀ (cur es : List Int) (j : Nat),
    cur.get? j = es.get? j → (plusPlus cur es).get? j = cur.get? j
  | [], _, _, _ => by simp [plusPlus]
  | _ :: _, [], _, _ => by simp [plusPlus]
  | c :: cs, e :: es, j, hj => by
      by_cases hce : c = e
      · rw [plusPlus, if_pos hce]
        cases j with
        | zero => rfl
        | succ j =>
          simp only [List.get?_cons_succ] at hj ⊢
          exact plusPlusFrozen cs es j hj
      · rw [plusPlus, if_neg hce]
        cases j with
        | zero =>
          simp only [List.get?_cons_zero, Option.some.injEq] at hj
          exact absurd hj hce
        | succ j => rfl

theorem plusIsFrozen : ∀ (cur es : List Int) (off : Int) (j : Nat), 0 ≤ off →
    cur.get? j = es.get? j → (plusIs cur es off).get? j = cur.get? j
  | [], _, _, _, _, _ => by simp [plusIs]
  | [c], es, off, j, _, _ => by simp [plusIs]
  | c :: c2 :: cs, [], off, j, _, _ => by simp [plusIs]
  | c :: c2 :: cs, e :: es, off, j, hoff, hj => by
      simp only [plusIs]
      by_cases hd : e - c > off
      · rw [if_pos hd]
        cases j with
        | zero =>
          simp only [List.get?_cons_zero, Option.some.injEq] at hj
          omega
        | succ j => rfl
      · rw [if_neg hd]
        cases j with
        | zero =>
          simp only [List.get?_cons_zero, Option.some.injEq] at hj ⊢
          omega
        | succ j =>
          simp only [List.get?_cons_succ] at hj ⊢
          exact plusIsFrozen (c2 :: cs) es (off - (e - c)) j (by omega) hj

theorem derefDrop {α : Type} : ∀ (j : Nat) (seqs : List (List α)) (cur : List Int),
    cur.length = seqs.length → j + 1 < seqs.length →
    (∀ i, i ≤ j → cur.get? i = (endsOfSeqs seqs).get? i) →
    deref seqs cur = deref (seqs.drop (j + 1)) (cur.drop (j + 1))
  | _, [], _, _, hj, _ => by simp at hj
  | _, [_], _, _, hj, _ => by simp at hj
  | j, s :: s2 :: ss, [], hlen, _, _ => by simp at hlen
  | j, s :: s2 :: ss, c :: cs, hlen, hj, hpre => by
      have hc : c = (s.length : Int) := by
        have h0 := hpre 0 (Nat.zero_le j)
        simp only [endsOfSeqs, List.map, List.get?_cons_zero, Option.some.injEq] at h0
        exact h0
      have hstep : deref (s :: s2 :: ss) (c :: cs) = deref (s2 :: ss) cs := by
        simp only [deref, if_pos hc]
      cases j with
      | zero => simpa using hstep
      | succ j =>
        have htail := derefDrop j (s2 :: ss) cs (by simpa using hlen)
          (by simpa using hj)
          (fun i hi => by
            have := hpre (i + 1) (by omega)
            simpa [endsOfSeqs] using this)
        simpa using hstep.trans htail

theorem derefFirst {α : Type} : ∀ (seqs : List (List α)) (cur : List Int),
    cur.length = seqs.length → notEqual cur (endsOfSeqs seqs) = true →
    ∃ i s c, (∀ j, j < i → cur.get? j = (endsOfSeqs seqs).get? j) ∧
      seqs.get? i = some s ∧ cur.get? i = some c ∧ c ≠ (s.length : Int) ∧
      deref seqs cur = derefMember s c
  | [], cur, hlen, hne => by
      have : cur = [] := List.length_eq_zero.mp (by simpa using hlen)
      subst this
      simp [notEqual, endsOfSeqs] at hne
  | [s], [c], _, hne => by
      have hc : c ≠ (s.length : Int) := by
        simpa [notEqual, endsOfSeqs] using hne
      exact ⟨0, s, c, fun j hj => absurd hj (Nat.not_lt_zero j), rfl, rfl, hc, by
        simp only [deref]⟩
  | [_], [], hlen, _ => by simp at hlen
  | [_], _ :: _ :: _, hlen, _ => by simp at hlen
  | _ :: _ :: _, [], hlen, _ => by simp at hlen
  | _ :: _ :: _, [_], hlen, _ => by simp at hlen
  | s :: s2 :: ss, c :: c2 :: cs, hlen, hne => by
      by_cases hc : c = (s.length : Int)
      · have hne2 : notEqual (c2 :: cs) (endsOfSeqs (s2 :: ss)) = true := by
          simp only [endsOfSeqs, List.map] at hne ⊢
          simp only [notEqual, hc, decide_eq_true_eq] at hne ⊢
          rcases Bool.or_eq_true_iff.mp hne with h | h
          · simp at h
          · exact h
        obtain ⟨i, s', c', hpre, hs, hcur, hcne, hder⟩ :=
          derefFirst (s2 :: ss) (c2 :: cs) (by simpa using hlen) hne2
        refine ⟨i + 1, s', c', ?_, by simpa using hs, by simpa using hcur, hcne, ?_⟩
        · intro j hj
          cases j with
          | zero => simp [endsOfSeqs, hc]
          | succ j =>
            have := hpre j (by omega)
            simpa [endsOfSeqs] using this
        · rw [show deref (s :: s2 :: ss) (c :: c2 :: cs) = deref (s2 :: ss) (c2 :: cs) by
            simp only [deref, if_pos hc]]
          exact hder
      · exact ⟨0, s, c, fun j hj => absurd hj (Nat.not_lt_zero j), rfl, rfl, hc, by
          simp only [deref, if_neg hc]⟩

theorem plusIsFuelEnough : ∀ (n : Nat) (cs es : List Int) (off : Int),
    1 ≤ cs.length → cs.length ≤ n →
    plusIsFuel n cs es off = some (plusIs cs es off)
  | 0, cs, _, _, h1, h2 => by omega
  | n + 1, [], _, _, h1, _ => by simp at h1
  | n + 1, [c], es, off, _, _ => by simp [plusIsFuel, plusIs]
  | n + 1, c :: c2 :: cs, [], off, _, _ => by simp [plusIsFuel, plusIs]
  | n + 1, c :: c2 :: cs, e :: es, off, _, hn => by
      simp only [plusIsFuel, plusIs]
      by_cases hd : e - c > off
      · rw [if_pos hd, if_pos hd]
      · rw [if_neg hd, if_neg hd]
        rw [plusIsFuelEnough n (c2 :: cs) es (off - (e - c)) (by simp)
          (by simp at hn ⊢; omega)]
        rfl

theorem minIsRevFuelEnough : ∀ (n : Nat) (cs es : List Int) (off : Int),
    1 ≤ cs.length → cs.length ≤ n →
    minIsRevFuel n cs es off = some (minIsRev cs es off)
  | 0, cs, _, _, h1, h2 => by omega
  | n + 1, [], _, _, h1, _ => by simp at h1
  | n + 1, [c], es, off, _, _ => by simp [minIsRevFuel, minIsRev]
  | n + 1, c :: c2 :: cs, [], off, _, _ => by simp [minIsRevFuel, minIsRev]
  | n + 1, c :: c2 :: cs, e :: es, off, _, hn => by
      simp only [minIsRevFuel, minIsRev]
      by_cases hc : c = 0
      · rw [if_pos hc, if_pos hc]
        rw [minIsRevFuelEnough n (c2 :: cs) es off (by simp) (by simp at hn ⊢; omega)]
        rfl
      · rw [if_neg hc, if_neg hc]
        by_cases hd : e - c ≤ off
        · rw [if_pos hd, if_pos hd]
          rw [minIsRevFuelEnough n (c2 :: cs) es (if e - c = 0 then 1 else off - (e - c))
            (by simp) (by simp at hn ⊢; omega)]
          rfl
        · rw [if_neg hd, if_neg hd]

/-- Claim C1 fails on the code: with members of lengths 1 and 1, the jump
`operator+=` by 2 from the begin-state leaves the last member untouched
(the `PlusIs` base case is a no-op and drops the residual offset), ending at
`[1, 0]`, while two `operator++` steps end at `[1, 1]`; the code's own
`operator!=` distinguishes the two cursors, although `2` is a valid forward
offset from the begin-state. -/
theorem plusIsDropsOffsetC1 :
    (2 ≤ total [1, 1]) ∧
    plusIs (begins [1, 1]) (endsOf [1, 1]) 2 = [(1 : Int), 0] ∧
    stepN (endsOf [1, 1]) 2 (begins [1, 1]) = [(1 : Int), 1] ∧
    notEqual (plusIs (begins [1, 1]) (endsOf [1, 1]) 2)
      (stepN (endsOf [1, 1]) 2 (begins [1, 1])) = true := by
  decide

/-- Claim C2 fails on the code: with members of lengths 1 and 1 and the
begin-state cursor, jumping forward by 2 (a valid offset, the remaining
distance is exactly 2) and then backward by 2 ends at `[-1, 0]` - member 0
has been moved before its begin - instead of returning to the begin-state,
and the code's `operator!=` distinguishes the result from the original. -/
theorem minIsRoundTripFailsC2 :
    (2 ≤ total [1, 1]) ∧
    minIs (plusIs (begins [1, 1]) (endsOf [1, 1]) 2) (endsOf [1, 1]) 2 =
      [(-1 : Int), 0] ∧
    notEqual (minIs (plusIs (begins [1, 1]) (endsOf [1, 1]) 2) (endsOf [1, 1]) 2)
      (begins [1, 1]) = true := by
  decide

/-- Claim C3: for every list of member lengths, the number of step-forwards
taking the concatenation cursor from the begin-state to a cursor equal to the
end-state is exactly the sum of the lengths: after `total lens` steps the
cursor is the end-state, and after any smaller number of steps the code's
`operator!=` against the end-state still returns true. -/
theorem concatExhaustionCountC3 (lens : List Nat) :
    stepN (endsOf lens) (total lens) (begins lens) = endsOf lens ∧
    ∀ k, k < total lens →
      notEqual (stepN (endsOf lens) k (begins lens)) (endsOf lens) = true := by
  constructor
  · rw [← stateAtZero, stepNStateAt lens 0 (total lens) (by omega)]
    rw [Nat.zero_add, stateAtTotal]
  · intro k hk
    rw [← stateAtZero, stepNStateAt lens 0 k (by omega), Nat.zero_add]
    exact notEqualStateAt lens k hk

/-- Witness for C3 at member lengths `[1, 1]` and `k = 1`. -/
theorem concatExhaustionCountC3Witness :
    (1 < total [1, 1]) ∧
      notEqual (stepN (endsOf [1, 1]) 1 (begins [1, 1])) (endsOf [1, 1]) = true :=
  ⟨by decide, (concatExhaustionCountC3 [1, 1]).2 1 (by decide)⟩

/-- Claim C4: concatenating the member sequences `[x, y]` and `[p, q, r]`,
dereferencing while stepping forward from the begin-state yields exactly
`x, y, p, q, r` in that order, and after those five steps the cursor is the
end-state. -/
theorem concatOrderingC4 {α : Type} (x y p q r : α) :
    ((List.range 5).map (fun k =>
        deref [[x, y], [p, q, r]]
          (stepN (endsOfSeqs [[x, y], [p, q, r]]) k (begins [2, 3]))) =
      [some x, some y, some p, some q, some r]) ∧
    stepN (endsOfSeqs [[x, y], [p, q, r]]) 5 (begins [2, 3]) =
      endsOfSeqs [[x, y], [p, q, r]] := by
  constructor <;> rfl

/-- Claim C5 counterexample: at member lengths `[1, 1]`, the cursor reached
after one forward step has member 0 exhausted (`current[0] = end[0]`), yet the
step-backward operation `operator--` changes member 0; so it is not the case
that every subsequent stepping operation leaves an exhausted member frozen. -/
theorem frozenBackwardCEC5 :
    stateAt [1, 1] 1 = [(1 : Int), 0] ∧
    [(1 : Int), 0].get? 0 = (endsOf [1, 1]).get? 0 ∧
    (minusMinus [(1 : Int), 0]).get? 0 ≠ [(1 : Int), 0].get? 0 := by
  decide

/-- Claim C5 (amended to forward operations): an exhausted member
(`current[j] = end[j]`) is left unchanged by `operator++` and by
`operator+=` with any non-negative offset, and when members `0..j` are all
exhausted, dereference is computed entirely from the members to the right of
`j`. -/
theorem exhaustedFrozenForwardC5 {α : Type} (seqs : List (List α))
    (cur es : List Int) (j : Nat) (off : Int) (hoff : 0 ≤ off) :
    (cur.get? j = es.get? j →
      (plusPlus cur es).get? j = cur.get? j ∧
      (plusIs cur es off).get? j = cur.get? j) ∧
    (cur.length = seqs.length → j + 1 < seqs.length →
      (∀ i, i ≤ j → cur.get? i = (endsOfSeqs seqs).get? i) →
      deref seqs cur = deref (seqs.drop (j + 1)) (cur.drop (j + 1))) := by
  constructor
  · intro hj
    exact ⟨plusPlusFrozen cur es j hj, plusIsFrozen cur es off j hoff hj⟩
  · intro h1 h2 h3
    exact derefDrop j seqs cur h1 h2 h3

/-- Witness for the amended C5: member 0 of `[1, 0]` is exhausted and is
left unchanged by `operator++` and by `operator+= 1`. -/
theorem exhaustedFrozenForwardC5Witness :
    ((0 : Int) ≤ 1) ∧ ([(1 : Int), 0].get? 0 = [(1 : Int), 1].get? 0) ∧
      ((plusPlus [(1 : Int), 0] [1, 1]).get? 0 = [(1 : Int), 0].get? 0 ∧
        (plusIs [(1 : Int), 0] [1, 1] 1).get? 0 = [(1 : Int), 0].get? 0) :=
  ⟨by decide, by decide,
    (exhaustedFrozenForwardC5 [[10], [20]] [(1 : Int), 0] [(1 : Int), 1] 0 1
      (by decide)).1 (by decide)⟩

/-- Claim C6: dereferencing a composite cursor that the code's equality does
not identify with the end-state returns the element of the first member,
scanning from index 0 upward, whose current iterator differs from its end
iterator; every member before it sits exactly at its end. -/
theorem derefFirstActiveC6 {α : Type} (seqs : List (List α)) (cur : List Int)
    (hlen : cur.length = seqs.length)
    (hne : notEqual cur (endsOfSeqs seqs) = true) :
    ∃ i s c, (∀ j, j < i → cur.get? j = (endsOfSeqs seqs).get? j) ∧
      seqs.get? i = some s ∧ cur.get? i = some c ∧ c ≠ (s.length : Int) ∧
      deref seqs cur = derefMember s c :=
  derefFirst seqs cur hlen hne

/-- Witness for C6 with members `[5]` and `[7]` and cursor `[1, 0]`: member 0
is exhausted, so dereference falls through to member 1. -/
theorem derefFirstActiveC6Witness :
    ([(1 : Int), 0].length = [[5], [7]].length) ∧
    (notEqual [(1 : Int), 0] (endsOfSeqs [[5], [7]]) = true) ∧
    ∃ i s c, (∀ j, j < i → [(1 : Int), 0].get? j = (endsOfSeqs [[5], [7]]).get? j) ∧
      [[5], [7]].get? i = some s ∧ [(1 : Int), 0].get? i = some c ∧
      c ≠ (s.length : Int) ∧
      deref [[5], [7]] [(1 : Int), 0] = derefMember s c :=
  ⟨by decide, by decide,
    derefFirstActiveC6 [[5], [7]] [(1 : Int), 0] (by decide) (by decide)⟩

/-- Claim C7: for cursor tuples of the same arity, `operator==` (the negation
of the short-circuit scan `operator!=`) returns true exactly when all member
cursors are pairwise equal, and `operator!=` is exactly its negation. -/
theorem equalityPairwiseC7 (a b : List Int) (h : a.length = b.length) :
    (eqCursor a b = true ↔ a = b) ∧ (notEqual a b = !eqCursor a b) := by
  constructor
  · rw [eqCursor, Bool.not_eq_true']
    exact notEqualFalseIff a b h
  · rw [eqCursor, Bool.not_not]

/-- Witness for C7 at the cursor pairs `[1, 2]` and `[1, 3]`. -/
theorem equalityPairwiseC7Witness :
    ([(1 : Int), 2].length = [(1 : Int), 3].length) ∧
      ((eqCursor [(1 : Int), 2] [1, 3] = true ↔ [(1 : Int), 2] = [1, 3]) ∧
        (notEqual [(1 : Int), 2] [1, 3] = !eqCursor [(1 : Int), 2] [1, 3])) :=
  ⟨by decide, equalityPairwiseC7 [(1 : Int), 2] [1, 3] (by decide)⟩

/-- Claim C8: when cursor `a` is reached from cursor `b` by `d` forward
steps, the accumulated per-member distance `operator-` gives `a - b = d` and
`b - a = -d`. -/
theorem distanceConsistencyC8 (lens : List Nat) (p d : Nat)
    (h : p + d ≤ total lens) :
    minus (stepN (endsOf lens) d (stateAt lens p)) (stateAt lens p) = (d : Int) ∧
    minus (stateAt lens p) (stepN (endsOf lens) d (stateAt lens p)) = -(d : Int) := by
  rw [stepNStateAt lens p d h]
  constructor
  · rw [minusStateAt lens p (p + d) (by omega) (by omega)]
    push_cast
    ring
  · rw [minusStateAt lens (p + d) p (by omega) (by omega)]
    push_cast
    ring

/-- Witness for C8 at member lengths `[1, 1]`, start position 0 and `d = 2`. -/
theorem distanceConsistencyC8Witness :
    (0 + 2 ≤ total [1, 1]) ∧
      (minus (stepN (endsOf [1, 1]) 2 (stateAt [1, 1] 0)) (stateAt [1, 1] 0) =
          ((2 : Nat) : Int) ∧
        minus (stateAt [1, 1] 0) (stepN (endsOf [1, 1]) 2 (stateAt [1, 1] 0)) =
          -((2 : Nat) : Int)) :=
  ⟨by decide, distanceConsistencyC8 [1, 1] 0 2 (by decide)⟩

/-- Claim C9: the jump operations terminate for every cursor tuple, end
tuple and offset - including zero-length members and the zero-distance
carry: a fuel budget equal to the arity N always suffices, i.e. the fuelled
versions of `PlusIs` and `MinIs` never run out of fuel and compute the
unfuelled results. -/
theorem jumpTerminatesC9 (cur es : List Int) (off : Int) (h : 1 ≤ cur.length) :
    plusIsFuel cur.length cur es off = some (plusIs cur es off) ∧
    minIsRevFuel cur.length cur.reverse es.reverse off =
      some ((minIs cur es off).reverse) := by
  constructor
  · exact plusIsFuelEnough cur.length cur es off h (le_refl _)
  · rw [minIs, List.reverse_reverse]
    exact minIsRevFuelEnough cur.length cur.reverse es.reverse off
      (by simpa using h) (by simp)

/-- Witness for C9 with a zero-length first member, end tuple `[0, 3]` and
offset 5. -/
theorem jumpTerminatesC9Witness :
    (1 ≤ [(0 : Int), 0].length) ∧
      (plusIsFuel [(0 : Int), 0].length [(0 : Int), 0] [0, 3] 5 =
          some (plusIs [(0 : Int), 0] [0, 3] 5) ∧
        minIsRevFuel [(0 : Int), 0].length [(0 : Int), 0].reverse
            [(0 : Int), 3].reverse 5 =
          some ((minIs [(0 : Int), 0] [0, 3] 5).reverse)) :=
  ⟨by decide, jumpTerminatesC9 [(0 : Int), 0] [0, 3] 5 (by decide)⟩

/-- Claim C10 fails on the code: at member lengths `[1, 1]` the cursor
`[1, 0]` (reached by one forward step, and not equal to the begin-state) is a
valid input for step-backward, and the post-decrement operator returns a copy
of the prior value, but it leaves the cursor at `[1, 1]` - the source runs
`++*this` instead of `--*this` - whereas pre-decrement produces `[0, 0]`. -/
theorem postDecrementIncrementsC10 :
    stateAt [1, 1] 1 = [(1 : Int), 0] ∧
    notEqual [(1 : Int), 0] (begins [1, 1]) = true ∧
    postDec [(1 : Int), 0] (endsOf [1, 1]) = ([(1 : Int), 0], [(1 : Int), 1]) ∧
    minusMinus [(1 : Int), 0] = [(0 : Int), 0] ∧
    notEqual [(1 : Int), 1] [(0 : Int), 0] = true := by
  decide

end Lz
